import Mathlib

/-
  Verification development for the Smart Contract Registry Builder
  (src/SCRG.rs).

  The program builds one in-memory metadata record through a typestate
  builder: ContractBuilder<Init> -> ContractBuilder<Validated> ->
  ContractBuilder<Deployed>, with the record stored behind
  Rc<RefCell<HashMap<String, String>>>.

  Shallow embedding:
  - the HashMap<String, String> is an association list with unique keys
    (hmInsert replaces the entry in place, as HashMap::insert does);
  - the RefCell dynamic borrow flag is an explicit BorrowFlag; a failed
    borrow_mut (overlapping exclusive access) is a panic, modelled as
    Option.none propagating out of the operation;
  - the Rc strong count is an explicit field of the shared cell;
    Rc::clone increments it, Rc::try_unwrap succeeds only when it is 1;
  - the compile-time typestate discipline of the three impl blocks is
    modelled by the Op table (srcStage / dstStage): which stage each
    method is defined on, and which stage of builder it returns.
-/

namespace SCRG

/-- The metadata mapping: HashMap<String, String> as an association list. -/
abbrev HMap := List (String × String)

/-- Model of HashMap::insert: replace the entry for the key in place if
present, otherwise append a fresh entry. -/
def hmInsert (k v : String) : HMap → HMap
  | [] => [(k, v)]
  | (k', v') :: rest => if k' = k then (k, v) :: rest else (k', v') :: hmInsert k v rest

/-- Model of HashMap lookup: the value stored at a key, if any. -/
def hmGet (k : String) : HMap → Option String
  | [] => none
  | (k', v') :: rest => if k' = k then some v' else hmGet k rest

/-- The three typestate markers of the builder (structs Init, Validated,
Deployed in the source). -/
inductive Stage
  | SInit
  | SValidated
  | SDeployed
  deriving DecidableEq, Repr, Fintype

/-- Dynamic borrow state of the RefCell holding the metadata map. -/
inductive BorrowFlag
  | unused
  | reading (n : Nat)
  | writing
  deriving DecidableEq, Repr

/-- The shared cell Rc<RefCell<HashMap<String, String>>>: borrow flag,
contents, and Rc strong count (number of live handles). -/
structure MetadataCell where
  flag : BorrowFlag
  data : HMap
  strong : Nat
  deriving DecidableEq, Repr

/-- A builder handle: its immutable name and the stage its typestate marker
records. The metadata cell it references is threaded separately. -/
structure ContractBuilder where
  name : String
  stage : Stage
  deriving DecidableEq, Repr

/-- RefCell::borrow_mut: succeeds only when no borrow is outstanding;
an overlapping exclusive borrow panics (none). -/
def borrowMutAcquire (c : MetadataCell) : Option MetadataCell :=
  match c.flag with
  | BorrowFlag.unused => some ⟨BorrowFlag.writing, c.data, c.strong⟩
  | _ => none

/-- Dropping a RefMut at scope exit: the borrow flag returns to unused. -/
def borrowMutRelease (c : MetadataCell) : MetadataCell :=
  ⟨BorrowFlag.unused, c.data, c.strong⟩

/-- ContractBuilder::new: a fresh Init-stage builder over a fresh cell
(empty map, strong count 1). -/
def ContractBuilder.new (nm : String) : ContractBuilder × MetadataCell :=
  (⟨nm, Stage.SInit⟩, ⟨BorrowFlag.unused, [], 1⟩)

/-- ContractBuilder<Init>::with_author: borrow_mut the cell, insert
"author", release, return self. -/
def with_author (b : ContractBuilder) (c : MetadataCell) (author : String) :
    Option (ContractBuilder × MetadataCell) :=
  match borrowMutAcquire c with
  | none => none
  | some c1 =>
      some (b, borrowMutRelease ⟨c1.flag, hmInsert "author" author c1.data, c1.strong⟩)

/-- ContractBuilder<Init>::validate: borrow_mut the cell, insert
"validated" = "true", release, rebuild the handle at stage Validated. -/
def validate (b : ContractBuilder) (c : MetadataCell) :
    Option (ContractBuilder × MetadataCell) :=
  match borrowMutAcquire c with
  | none => none
  | some c1 =>
      some (⟨b.name, Stage.SValidated⟩,
        borrowMutRelease ⟨c1.flag, hmInsert "validated" "true" c1.data, c1.strong⟩)

/-- ContractBuilder<Validated>::on_deploy: one borrow_mut scope inserts
"status" = "deployed" and is released; a second borrow_mut scope hands the
map to the hook; then the handle is rebuilt at stage Deployed. The hook is
a pure map transformer (a hook that does not touch the shared cell). -/
def on_deploy (b : ContractBuilder) (c : MetadataCell) (hook : HMap → HMap) :
    Option (ContractBuilder × MetadataCell) :=
  match borrowMutAcquire c with
  | none => none
  | some c1 =>
      let c2 := borrowMutRelease ⟨c1.flag, hmInsert "status" "deployed" c1.data, c1.strong⟩
      match borrowMutAcquire c2 with
      | none => none
      | some c3 =>
          some (⟨b.name, Stage.SDeployed⟩,
            borrowMutRelease ⟨c3.flag, hook c3.data, c3.strong⟩)

/-- ContractBuilder<Deployed>::registry: moves the Rc handle out of the
builder (the strong count is unchanged). -/
def registry (b : ContractBuilder) (c : MetadataCell) : MetadataCell := c

/-- ContractBuilder<Deployed>::metadata: Rc::clone — a second live handle
to the same cell; the shared strong count increases by one. -/
def metadataClone (c : MetadataCell) : MetadataCell :=
  ⟨c.flag, c.data, c.strong + 1⟩

/-- ContractBuilder<Deployed>::into_inner:
Rc::try_unwrap(..).ok().map(RefCell::into_inner).unwrap_or_else(HashMap::new).
try_unwrap succeeds exactly when this builder holds the only handle
(strong count 1); otherwise the accumulated data is dropped and a fresh
empty map is returned, with no error signalled (the result type is the
plain map). -/
def into_inner (c : MetadataCell) : HMap :=
  if c.strong = 1 then c.data else []

/-- A hook that performs a sequence of map insertions (the shape of deploy
hooks in this program: "it can add arbitrary additional keys"). -/
def insertsHook (l : List (String × String)) : HMap → HMap :=
  fun m => l.foldl (fun acc p => hmInsert p.1 p.2 acc) m

/-- A sequence of with_author calls in the Init stage, left to right. -/
def withAuthors (b : ContractBuilder) (c : MetadataCell) :
    List String → Option (ContractBuilder × MetadataCell)
  | [] => some (b, c)
  | a :: rest =>
      match with_author b c a with
      | none => none
      | some r => withAuthors r.1 r.2 rest

/-- The whole build chain new -> with_author* -> validate -> on_deploy. -/
def buildChain (nm : String) (authors : List String) (hook : HMap → HMap) :
    Option (ContractBuilder × MetadataCell) :=
  match withAuthors (ContractBuilder.new nm).1 (ContractBuilder.new nm).2 authors with
  | none => none
  | some r1 =>
      match validate r1.1 r1.2 with
      | none => none
      | some r2 => on_deploy r2.1 r2.2 hook

/-- The deploy hook written in main: insert timestamp, then signer. -/
def mainHook : HMap → HMap :=
  fun m => hmInsert "signer" "0xDEADBEEF" (hmInsert "timestamp" "2025-06-28" m)

/-- The registry value computed in main:
new("TokenX").with_author("azaM").validate().on_deploy(hook).registry(). -/
def mainRegistry : Option MetadataCell :=
  match buildChain "TokenX" ["azaM"] mainHook with
  | none => none
  | some r => some (registry r.1 r.2)

/-- One printed line of the print loop in main: "  {k}: {v}". -/
def formatLine (p : String × String) : String :=
  "  " ++ p.1 ++ ": " ++ p.2

/-- The full standard output of main, as a list of lines: the header, then
one line per key/value pair of the registry map. -/
def mainLines : Option (List String) :=
  match mainRegistry with
  | none => none
  | some c => some ("📘 Contract Metadata:" :: c.data.map formatLine)

/-- The exit code of main: success (0) whenever the run completes. -/
def mainExitCode : Option Nat :=
  match mainRegistry with
  | none => none
  | some _ => some 0

/-- The methods of the program, one per fn in the three impl blocks
(plus the free constructor new). -/
inductive Op
  | opNew
  | opWithAuthor
  | opValidate
  | opOnDeploy
  | opRegistry
  | opName
  | opMetadata
  | opBorrow
  | opBorrowMut
  | opIntoInner
  | opIntoDeployed
  deriving DecidableEq, Repr, Fintype

/-- The stage of builder each method is defined on (which impl block it
lives in); none for the free constructor new. -/
def srcStage : Op → Option Stage
  | Op.opNew => none
  | Op.opWithAuthor => some Stage.SInit
  | Op.opValidate => some Stage.SInit
  | Op.opOnDeploy => some Stage.SValidated
  | Op.opRegistry => some Stage.SDeployed
  | Op.opName => some Stage.SDeployed
  | Op.opMetadata => some Stage.SDeployed
  | Op.opBorrow => some Stage.SDeployed
  | Op.opBorrowMut => some Stage.SDeployed
  | Op.opIntoInner => some Stage.SDeployed
  | Op.opIntoDeployed => some Stage.SDeployed

/-- The stage of the builder handle each method returns; none when the
method returns no builder handle at all. -/
def dstStage : Op → Option Stage
  | Op.opNew => some Stage.SInit
  | Op.opWithAuthor => some Stage.SInit
  | Op.opValidate => some Stage.SValidated
  | Op.opOnDeploy => some Stage.SDeployed
  | Op.opRegistry => none
  | Op.opName => none
  | Op.opMetadata => none
  | Op.opBorrow => none
  | Op.opBorrowMut => none
  | Op.opIntoInner => none
  | Op.opIntoDeployed => none

/-- Position of a stage along the Init -> Validated -> Deployed order. -/
def stageIdx : Stage → Nat
  | Stage.SInit => 0
  | Stage.SValidated => 1
  | Stage.SDeployed => 2

/-- Applying one method to a builder handle at stage s: defined only when
the method is callable at s (it lives in the impl block for s), and then
the handle it returns is at the destination stage of the method. -/
def stepStage (s : Stage) (o : Op) : Option Stage :=
  if srcStage o = some s then dstStage o else none

/-- Applying a sequence of methods to a builder handle, stage-level view. -/
def runOps (s : Stage) : List Op → Option Stage
  | [] => some s
  | o :: rest =>
      match stepStage s o with
      | none => none
      | some t => runOps t rest

/-- Inserting a key stores exactly its value. -/
theorem hmGet_hmInsert_same (k v : String) : ∀ m : HMap, hmGet k (hmInsert k v m) = some v := by
  intro m
  induction m with
  | nil => simp [hmInsert, hmGet]
  | cons p rest ih =>
      by_cases h : p.1 = k
      · simp [hmInsert, hmGet, h]
      · simp [hmInsert, hmGet, h, ih]

/-- Inserting one key leaves the value at every other key unchanged. -/
theorem hmGet_hmInsert_ne (k k' v : String) (hne : k' ≠ k) :
    ∀ m : HMap, hmGet k (hmInsert k' v m) = hmGet k m := by
  intro m
  induction m with
  | nil => simp [hmInsert, hmGet, hne]
  | cons p rest ih =>
      by_cases h : p.1 = k'
      · simp [hmInsert, hmGet, h, hne]
      · by_cases h2 : p.1 = k
        · simp [hmInsert, hmGet, h, h2, Ne.symm hne]
        · simp [hmInsert, hmGet, h, h2, ih]

/-- An insertion never deletes an entry: every key that had a value still
has one. -/
theorem hmGet_hmInsert_isSome (k k' v : String) (m : HMap)
    (h : (hmGet k m).isSome) : (hmGet k (hmInsert k' v m)).isSome := by
  by_cases hk : k' = k
  · subst hk
    rw [hmGet_hmInsert_same]
    rfl
  · rwa [hmGet_hmInsert_ne k k' v hk]

/-- A hook that only performs insertions leaves untouched keys unchanged. -/
theorem hmGet_insertsHook_notMem (k : String) :
    ∀ (l : List (String × String)) (m : HMap), k ∉ l.map Prod.fst →
      hmGet k (insertsHook l m) = hmGet k m := by
  intro l
  induction l with
  | nil => intro m _; rfl
  | cons p rest ih =>
      intro m hk
      simp only [List.map_cons, List.mem_cons] at hk
      push_neg at hk
      have h1 : hmGet k (insertsHook rest (hmInsert p.1 p.2 m)) = hmGet k (hmInsert p.1 p.2 m) :=
        ih (hmInsert p.1 p.2 m) hk.2
      calc hmGet k (insertsHook (p :: rest) m)
          = hmGet k (insertsHook rest (hmInsert p.1 p.2 m)) := rfl
        _ = hmGet k (hmInsert p.1 p.2 m) := h1
        _ = hmGet k m := hmGet_hmInsert_ne k p.1 p.2 (fun h => hk.1 h.symm) m

/-- A hook that only performs insertions never deletes an entry. -/
theorem hmGet_insertsHook_isSome (k : String) :
    ∀ (l : List (String × String)) (m : HMap), (hmGet k m).isSome →
      (hmGet k (insertsHook l m)).isSome := by
  intro l
  induction l with
  | nil => intro m h; exact h
  | cons p rest ih =>
      intro m h
      exact ih (hmInsert p.1 p.2 m) (hmGet_hmInsert_isSome k p.1 p.2 m h)

/-- Every key an insertion-only hook inserted is present afterwards. -/
theorem hmGet_insertsHook_mem (k v : String) :
    ∀ (l : List (String × String)) (m : HMap), (k, v) ∈ l →
      (hmGet k (insertsHook l m)).isSome := by
  intro l
  induction l with
  | nil => intro m h; cases h
  | cons p rest ih =>
      intro m h
      rcases List.mem_cons.1 h with h1 | h2
      · rcases h1 with ⟨⟩
        exact hmGet_insertsHook_isSome k rest (hmInsert k v m)
          (by rw [hmGet_hmInsert_same]; rfl)
      · exact ih (hmInsert p.1 p.2 m) h2

/-- with_author on an unborrowed cell: succeeds, inserts "author", releases
the borrow, returns the same handle. -/
theorem with_author_some (b : ContractBuilder) (c : MetadataCell) (a : String)
    (h : c.flag = BorrowFlag.unused) :
    with_author b c a =
      some (b, ⟨BorrowFlag.unused, hmInsert "author" a c.data, c.strong⟩) := by
  simp [with_author, borrowMutAcquire, borrowMutRelease, h]

/-- with_author aborts (none) when a borrow is outstanding. -/
theorem with_author_none (b : ContractBuilder) (c : MetadataCell) (a : String)
    (h : c.flag ≠ BorrowFlag.unused) : with_author b c a = none := by
  obtain ⟨f, d, n⟩ := c
  cases f with
  | unused => exact absurd rfl h
  | reading m => rfl
  | writing => rfl

/-- validate on an unborrowed cell: succeeds, inserts "validated" = "true",
releases the borrow, and the new handle is at stage Validated. -/
theorem validate_some (b : ContractBuilder) (c : MetadataCell)
    (h : c.flag = BorrowFlag.unused) :
    validate b c =
      some (⟨b.name, Stage.SValidated⟩,
        ⟨BorrowFlag.unused, hmInsert "validated" "true" c.data, c.strong⟩) := by
  simp [validate, borrowMutAcquire, borrowMutRelease, h]

/-- validate aborts (none) when a borrow is outstanding. -/
theorem validate_none (b : ContractBuilder) (c : MetadataCell)
    (h : c.flag ≠ BorrowFlag.unused) : validate b c = none := by
  obtain ⟨f, d, n⟩ := c
  cases f with
  | unused => exact absurd rfl h
  | reading m => rfl
  | writing => rfl

/-- on_deploy on an unborrowed cell: the status borrow is released before
the hook borrow is acquired, so both scopes succeed; the result applies the
hook to the map that already contains "status" = "deployed", and the new
handle is at stage Deployed. -/
theorem on_deploy_some (b : ContractBuilder) (c : MetadataCell) (hook : HMap → HMap)
    (h : c.flag = BorrowFlag.unused) :
    on_deploy b c hook =
      some (⟨b.name, Stage.SDeployed⟩,
        ⟨BorrowFlag.unused, hook (hmInsert "status" "deployed" c.data), c.strong⟩) := by
  simp [on_deploy, borrowMutAcquire, borrowMutRelease, h]

/-- A with_author sequence on an unborrowed cell succeeds, keeps the handle
and the strong count, only touches key "author", and deletes nothing. -/
theorem withAuthors_frame :
    ∀ (authors : List String) (b : ContractBuilder) (c : MetadataCell),
      c.flag = BorrowFlag.unused →
      ∃ d : HMap, withAuthors b c authors = some (b, ⟨BorrowFlag.unused, d, c.strong⟩) ∧
        (∀ k, k ≠ "author" → hmGet k d = hmGet k c.data) ∧
        (∀ k, (hmGet k c.data).isSome → (hmGet k d).isSome) := by
  intro authors
  induction authors with
  | nil =>
      intro b c hflag
      obtain ⟨f, d, n⟩ := c
      have hf : f = BorrowFlag.unused := hflag
      subst hf
      exact ⟨d, rfl, fun k _ => rfl, fun k h => h⟩
  | cons a rest ih =>
      intro b c hflag
      obtain ⟨d', hrun, hframe, hsome⟩ :=
        ih b ⟨BorrowFlag.unused, hmInsert "author" a c.data, c.strong⟩ rfl
      refine ⟨d', ?_, ?_, ?_⟩
      · simp only [withAuthors, with_author_some b c a hflag]
        exact hrun
      · intro k hk
        rw [hframe k hk]
        exact hmGet_hmInsert_ne k "author" a (Ne.symm hk) c.data
      · intro k h
        exact hsome k (hmGet_hmInsert_isSome k "author" a c.data h)

/-- After a non-empty with_author sequence, the stored author is the last
one written. -/
theorem withAuthors_last :
    ∀ (authors : List String) (b : ContractBuilder) (c : MetadataCell)
      (r : ContractBuilder × MetadataCell),
      authors ≠ [] → c.flag = BorrowFlag.unused →
      withAuthors b c authors = some r →
      hmGet "author" r.2.data = authors.getLast? := by
  intro authors
  induction authors with
  | nil => intro b c r hne _ _; exact absurd rfl hne
  | cons a rest ih =>
      intro b c r _ hflag hrun
      simp only [withAuthors, with_author_some b c a hflag] at hrun
      cases rest with
      | nil =>
          simp only [withAuthors] at hrun
          cases hrun
          simp [List.getLast?, hmGet_hmInsert_same]
      | cons a2 t =>
          rw [List.getLast?_cons_cons]
          exact ih b ⟨BorrowFlag.unused, hmInsert "author" a c.data, c.strong⟩ r
            (by simp) rfl hrun

/-- Each stage-level step keeps the stage index nondecreasing. -/
theorem stepStage_mono :
    ∀ (s : Stage) (o : Op) (t : Stage), stepStage s o = some t →
      stageIdx s ≤ stageIdx t := by decide

/-- The only method whose returned handle is at stage Deployed is
on_deploy. -/
theorem stepStage_deployed_src :
    ∀ (s : Stage) (o : Op), stepStage s o = some Stage.SDeployed →
      o = Op.opOnDeploy := by decide

/-- From Init, the only applicable methods are validate (to Validated) and
with_author (staying in Init). -/
theorem stepStage_init :
    ∀ (o : Op) (u : Stage), stepStage Stage.SInit o = some u →
      (o = Op.opValidate ∧ u = Stage.SValidated) ∨
      (o = Op.opWithAuthor ∧ u = Stage.SInit) := by decide

/-- Along any method sequence the stage index never decreases. -/
theorem runOps_mono :
    ∀ (ops : List Op) (s t : Stage), runOps s ops = some t →
      stageIdx s ≤ stageIdx t := by
  intro ops
  induction ops with
  | nil => intro s t h; cases h; exact Nat.le_refl _
  | cons o rest ih =>
      intro s t h
      simp only [runOps] at h
      cases hstep : stepStage s o with
      | none => rw [hstep] at h; cases h
      | some u =>
          rw [hstep] at h
          exact Nat.le_trans (stepStage_mono s o u hstep) (ih u t h)

/-- Reaching Deployed from anywhere earlier requires an on_deploy step. -/
theorem runOps_deployed_mem :
    ∀ (ops : List Op) (s : Stage), runOps s ops = some Stage.SDeployed →
      s = Stage.SDeployed ∨ Op.opOnDeploy ∈ ops := by
  intro ops
  induction ops with
  | nil =>
      intro s h
      cases h
      exact Or.inl rfl
  | cons o rest ih =>
      intro s h
      simp only [runOps] at h
      cases hstep : stepStage s o with
      | none => rw [hstep] at h; cases h
      | some u =>
          rw [hstep] at h
          rcases ih u h with hu | hmem
          · subst hu
            have ho := stepStage_deployed_src s o hstep
            rw [ho]
            exact Or.inr (List.mem_cons_self _ _)
          · exact Or.inr (List.mem_cons_of_mem o hmem)

/-- Reaching Deployed from Init requires a validate step. -/
theorem runOps_init_validate_mem :
    ∀ (ops : List Op), runOps Stage.SInit ops = some Stage.SDeployed →
      Op.opValidate ∈ ops := by
  intro ops
  induction ops with
  | nil => intro h; exact absurd h (by decide)
  | cons o rest ih =>
      intro h
      simp only [runOps] at h
      cases hstep : stepStage Stage.SInit o with
      | none => rw [hstep] at h; cases h
      | some u =>
          rw [hstep] at h
          rcases stepStage_init o u hstep with ⟨ho, hu⟩ | ⟨ho, hu⟩
          · rw [ho]
            exact List.mem_cons_self _ _
          · subst hu
            exact List.mem_cons_of_mem o (ih h)

/-- on_deploy aborts (none) when a borrow is outstanding at entry. -/
theorem on_deploy_none (b : ContractBuilder) (c : MetadataCell) (hook : HMap → HMap)
    (h : c.flag ≠ BorrowFlag.unused) : on_deploy b c hook = none := by
  obtain ⟨f, d, n⟩ := c
  cases f with
  | unused => exact absurd rfl h
  | reading m => rfl
  | writing => rfl

/-- Claim C1: the concrete build in main — new("TokenX"), with_author("azaM"),
validate(), on_deploy with a hook inserting timestamp "2025-06-28" and signer
"0xDEADBEEF" — yields a metadata mapping whose entries are exactly
author = azaM, validated = true, status = deployed, timestamp = 2025-06-28,
signer = 0xDEADBEEF: five entries and no others (as a permutation, since the
iteration order of the map is unspecified). -/
theorem C1_main_metadata :
    ∃ c : MetadataCell, mainRegistry = some c ∧
      c.data.Perm [("author", "azaM"), ("validated", "true"), ("status", "deployed"),
        ("timestamp", "2025-06-28"), ("signer", "0xDEADBEEF")] :=
  ⟨⟨BorrowFlag.unused,
    [("author", "azaM"), ("validated", "true"), ("status", "deployed"),
     ("timestamp", "2025-06-28"), ("signer", "0xDEADBEEF")], 1⟩,
   rfl, List.Perm.refl _⟩

/-- Claim C2: into_inner on a Deployed builder returns the full accumulated
mapping when the handle held by the builder is the only one (strong count 1); when
another handle is outstanding (strong count above 1, e.g. after metadata()
cloned the Rc) it returns an empty mapping, discarding the data with no
error signalled (into_inner is total: its result is a plain map). -/
theorem C2_into_inner_contract (c : MetadataCell) :
    (c.strong = 1 → into_inner c = c.data) ∧
    (c.strong ≠ 1 → into_inner c = []) ∧
    (metadataClone c).strong = c.strong + 1 ∧
    (metadataClone c).data = c.data ∧
    (1 ≤ c.strong → into_inner (metadataClone c) = []) := by
  refine ⟨fun h => by simp [into_inner, h], fun h => by simp [into_inner, h], rfl, rfl, fun h => ?_⟩
  have hne : c.strong + 1 ≠ 1 := by omega
  simp [into_inner, metadataClone, hne]

/-- Claim C2 witness: a one-handle cell yields its data; after cloning a
second handle, into_inner yields the empty map. -/
theorem C2_into_inner_contract_witness :
    into_inner ⟨BorrowFlag.unused, [("author", "azaM")], 1⟩ = [("author", "azaM")] ∧
    into_inner (metadataClone ⟨BorrowFlag.unused, [("author", "azaM")], 1⟩) = [] :=
  ⟨(C2_into_inner_contract ⟨BorrowFlag.unused, [("author", "azaM")], 1⟩).1 rfl,
   (C2_into_inner_contract ⟨BorrowFlag.unused, [("author", "azaM")], 1⟩).2.2.2.2 (by decide)⟩

/-- Claim C3 counterexample: the claim quantifies over every caller-supplied
hook, but on_deploy inserts "status" = "deployed" before running the hook,
so a hook that itself inserts key "status" overwrites it: afterwards the
status is "pending", not "deployed". -/
theorem C3_counterexample :
    (on_deploy ⟨"TokenX", Stage.SValidated⟩ ⟨BorrowFlag.unused, [], 1⟩
        (insertsHook [("status", "pending")])).map (fun r => hmGet "status" r.2.data) =
      some (some "pending") ∧
    some "pending" ≠ some "deployed" := by
  exact ⟨rfl, by decide⟩

/-- Claim C3 (amended): for every insertion-only hook, on_deploy on an
unborrowed cell completes; every key the hook inserted is present
afterwards; and provided the hook does not itself write key "status", the
mapping contains "status" with value exactly "deployed". -/
theorem C3_on_deploy_amended (b : ContractBuilder) (c : MetadataCell)
    (l : List (String × String)) (hflag : c.flag = BorrowFlag.unused) :
    ∃ r, on_deploy b c (insertsHook l) = some r ∧
      ("status" ∉ l.map Prod.fst → hmGet "status" r.2.data = some "deployed") ∧
      (∀ p ∈ l, (hmGet p.1 r.2.data).isSome) := by
  refine ⟨_, on_deploy_some b c (insertsHook l) hflag, ?_, ?_⟩
  · intro hmem
    show hmGet "status" (insertsHook l (hmInsert "status" "deployed" c.data)) = some "deployed"
    rw [hmGet_insertsHook_notMem "status" l _ hmem]
    exact hmGet_hmInsert_same "status" "deployed" c.data
  · intro p hp
    obtain ⟨pk, pv⟩ := p
    exact hmGet_insertsHook_mem pk pv l _ hp

/-- Claim C3 witness: the amended statement at the hook of main. -/
theorem C3_on_deploy_amended_witness :
    ∃ r, on_deploy ⟨"TokenX", Stage.SValidated⟩ ⟨BorrowFlag.unused, [], 1⟩
        (insertsHook [("timestamp", "2025-06-28"), ("signer", "0xDEADBEEF")]) = some r ∧
      ("status" ∉ ([("timestamp", "2025-06-28"), ("signer", "0xDEADBEEF")].map Prod.fst) →
        hmGet "status" r.2.data = some "deployed") ∧
      (∀ p ∈ [("timestamp", "2025-06-28"), ("signer", "0xDEADBEEF")],
        (hmGet p.1 r.2.data).isSome) :=
  C3_on_deploy_amended ⟨"TokenX", Stage.SValidated⟩ ⟨BorrowFlag.unused, [], 1⟩
    [("timestamp", "2025-06-28"), ("signer", "0xDEADBEEF")] rfl

/-- Claim C4: validate on an Init-stage builder over an unborrowed cell
succeeds, stores "validated" = "true", and returns a Validated-stage
handle; no method of the Init impl block (in particular with_author) is
callable at stage Validated. -/
theorem C4_validate_transition (b : ContractBuilder) (c : MetadataCell)
    (hstage : b.stage = Stage.SInit) (hflag : c.flag = BorrowFlag.unused) :
    ∃ r, validate b c = some r ∧
      hmGet "validated" r.2.data = some "true" ∧
      r.1.stage = Stage.SValidated ∧
      stepStage r.1.stage Op.opWithAuthor = none ∧
      (∀ o, srcStage o = some Stage.SInit → stepStage r.1.stage o = none) := by
  refine ⟨_, validate_some b c hflag, ?_, rfl, ?_, ?_⟩
  · exact hmGet_hmInsert_same "validated" "true" c.data
  · show stepStage Stage.SValidated Op.opWithAuthor = none
    decide
  · show ∀ o, srcStage o = some Stage.SInit → stepStage Stage.SValidated o = none
    decide

/-- Claim C4 witness: the transition at a concrete Init builder. -/
theorem C4_validate_transition_witness :
    ∃ r, validate ⟨"TokenX", Stage.SInit⟩ ⟨BorrowFlag.unused, [("author", "azaM")], 1⟩ = some r ∧
      hmGet "validated" r.2.data = some "true" ∧
      r.1.stage = Stage.SValidated ∧
      stepStage r.1.stage Op.opWithAuthor = none ∧
      (∀ o, srcStage o = some Stage.SInit → stepStage r.1.stage o = none) :=
  C4_validate_transition ⟨"TokenX", Stage.SInit⟩ ⟨BorrowFlag.unused, [("author", "azaM")], 1⟩
    rfl rfl

/-- Claim C5: for every non-empty sequence of with_author calls in the Init
stage, the sequence completes and the final value stored under "author" is
the author argument of the last call (last-write-wins). -/
theorem C5_last_write_wins (b : ContractBuilder) (c : MetadataCell)
    (authors : List String) (hne : authors ≠ []) (hflag : c.flag = BorrowFlag.unused) :
    ∃ r, withAuthors b c authors = some r ∧
      hmGet "author" r.2.data = authors.getLast? := by
  obtain ⟨d, hrun, _, _⟩ := withAuthors_frame authors b c hflag
  exact ⟨_, hrun, withAuthors_last authors b c _ hne hflag hrun⟩

/-- Claim C5 witness: two successive authors; the last one wins. -/
theorem C5_last_write_wins_witness :
    ∃ r, withAuthors ⟨"TokenX", Stage.SInit⟩ ⟨BorrowFlag.unused, [], 1⟩
        ["alice", "azaM"] = some r ∧
      hmGet "author" r.2.data = ["alice", "azaM"].getLast? :=
  C5_last_write_wins ⟨"TokenX", Stage.SInit⟩ ⟨BorrowFlag.unused, [], 1⟩
    ["alice", "azaM"] (by decide) rfl

/-- Claim C6: an overlapping exclusive borrow of the metadata cell makes
borrow_mut — and hence the whole builder operation — abort (none), with no
partial mutation; and each builder operation acquires and releases its
exclusive borrows in properly nested, non-overlapping scopes: from an
unborrowed cell each operation succeeds and returns the cell unborrowed,
and on_deploy releases the borrow used to insert "status" before acquiring
the borrow passed to the hook, so for a hook that does not itself access
the shared cell the abort branch is unreachable and the hook sees the map
already containing "status" = "deployed". -/
theorem C6_exclusive_borrow_discipline :
    (∀ c : MetadataCell, c.flag ≠ BorrowFlag.unused → borrowMutAcquire c = none) ∧
    (∀ b c a, c.flag ≠ BorrowFlag.unused → with_author b c a = none) ∧
    (∀ b c, c.flag ≠ BorrowFlag.unused → validate b c = none) ∧
    (∀ (b : ContractBuilder) (c : MetadataCell) (hook : HMap → HMap),
      c.flag ≠ BorrowFlag.unused → on_deploy b c hook = none) ∧
    (∀ b c a, c.flag = BorrowFlag.unused →
      with_author b c a =
        some (b, ⟨BorrowFlag.unused, hmInsert "author" a c.data, c.strong⟩)) ∧
    (∀ b c, c.flag = BorrowFlag.unused →
      validate b c =
        some (⟨b.name, Stage.SValidated⟩,
          ⟨BorrowFlag.unused, hmInsert "validated" "true" c.data, c.strong⟩)) ∧
    (∀ (b : ContractBuilder) (c : MetadataCell) (hook : HMap → HMap),
      c.flag = BorrowFlag.unused →
      on_deploy b c hook =
        some (⟨b.name, Stage.SDeployed⟩,
          ⟨BorrowFlag.unused, hook (hmInsert "status" "deployed" c.data), c.strong⟩)) := by
  refine ⟨?_, with_author_none, validate_none, on_deploy_none,
    with_author_some, validate_some, on_deploy_some⟩
  intro c h
  obtain ⟨f, d, n⟩ := c
  cases f with
  | unused => exact absurd rfl h
  | reading m => rfl
  | writing => rfl

/-- Claim C6 witness: on_deploy aborts on a cell with an outstanding
exclusive borrow, and completes from an unborrowed cell with the hook
applied after the status insertion. -/
theorem C6_exclusive_borrow_discipline_witness :
    on_deploy ⟨"TokenX", Stage.SValidated⟩
        ⟨BorrowFlag.writing, [("author", "azaM")], 1⟩ mainHook = none ∧
    on_deploy ⟨"TokenX", Stage.SValidated⟩
        ⟨BorrowFlag.unused, [("author", "azaM")], 1⟩ mainHook =
      some (⟨"TokenX", Stage.SDeployed⟩,
        ⟨BorrowFlag.unused,
          mainHook (hmInsert "status" "deployed" [("author", "azaM")]), 1⟩) :=
  ⟨C6_exclusive_borrow_discipline.2.2.2.1 ⟨"TokenX", Stage.SValidated⟩
      ⟨BorrowFlag.writing, [("author", "azaM")], 1⟩ mainHook (by decide),
   C6_exclusive_borrow_discipline.2.2.2.2.2.2 ⟨"TokenX", Stage.SValidated⟩
      ⟨BorrowFlag.unused, [("author", "azaM")], 1⟩ mainHook rfl⟩

/-- Claim C7: the stage machine. Every builder starts in Init (new returns
an Init handle); every method that takes and returns a builder handle
either stays in Init, steps Init to Validated, or steps Validated to
Deployed; no method defined on Deployed returns a builder handle (Deployed
is terminal); validate is the only method producing a Validated handle and
on_deploy the only one producing a Deployed handle; along any method
sequence the stage index never decreases (no backwards transition, no
revisit); and any sequence from Init reaching Deployed contains both a
validate step and an on_deploy step (no skipping). -/
theorem C7_state_machine :
    dstStage Op.opNew = some Stage.SInit ∧
    (∀ o s t, srcStage o = some s → dstStage o = some t →
      (s = Stage.SInit ∧ t = Stage.SInit) ∨
      (s = Stage.SInit ∧ t = Stage.SValidated) ∨
      (s = Stage.SValidated ∧ t = Stage.SDeployed)) ∧
    (∀ o, srcStage o = some Stage.SDeployed → dstStage o = none) ∧
    (∀ o s, srcStage o = some s → dstStage o = some Stage.SValidated →
      o = Op.opValidate ∧ s = Stage.SInit) ∧
    (∀ o s, srcStage o = some s → dstStage o = some Stage.SDeployed →
      o = Op.opOnDeploy ∧ s = Stage.SValidated) ∧
    (∀ ops s t, runOps s ops = some t → stageIdx s ≤ stageIdx t) ∧
    (∀ ops, runOps Stage.SInit ops = some Stage.SDeployed →
      Op.opValidate ∈ ops ∧ Op.opOnDeploy ∈ ops) := by
  refine ⟨rfl, by decide, by decide, by decide, by decide, runOps_mono, ?_⟩
  intro ops h
  refine ⟨runOps_init_validate_mem ops h, ?_⟩
  rcases runOps_deployed_mem ops Stage.SInit h with h1 | h2
  · exact absurd h1 (by decide)
  · exact h2

/-- Claim C7 witness: the main chain with_author; validate; on_deploy runs
Init to Deployed, its index grows, and it contains both transitions. -/
theorem C7_state_machine_witness :
    stageIdx Stage.SInit ≤ stageIdx Stage.SDeployed ∧
    Op.opValidate ∈ [Op.opWithAuthor, Op.opValidate, Op.opOnDeploy] ∧
    Op.opOnDeploy ∈ [Op.opWithAuthor, Op.opValidate, Op.opOnDeploy] :=
  ⟨C7_state_machine.2.2.2.2.2.1 [Op.opWithAuthor, Op.opValidate, Op.opOnDeploy]
      Stage.SInit Stage.SDeployed (by decide),
   C7_state_machine.2.2.2.2.2.2 [Op.opWithAuthor, Op.opValidate, Op.opOnDeploy] (by decide)⟩

/-- Claim C8: the name is fixed at creation and never modified: new(n)
yields a handle named n; with_author, validate and on_deploy all return a
handle whose name equals the name of the input handle; and any full build chain
started from new(n) ends in a Deployed handle still named n. -/
theorem C8_name_immutable (nm : String) :
    ((ContractBuilder.new nm).1.name = nm) ∧
    (∀ b c a r, with_author b c a = some r → r.1.name = b.name) ∧
    (∀ b c r, validate b c = some r → r.1.name = b.name) ∧
    (∀ (b : ContractBuilder) (c : MetadataCell) (hook : HMap → HMap) r,
      on_deploy b c hook = some r → r.1.name = b.name) ∧
    (∀ (authors : List String) (hook : HMap → HMap) r,
      buildChain nm authors hook = some r → r.1.name = nm ∧ r.1.stage = Stage.SDeployed) := by
  refine ⟨rfl, ?_, ?_, ?_, ?_⟩
  · intro b c a r h
    obtain ⟨f, d, n⟩ := c
    cases f with
    | unused => cases h; rfl
    | reading m => cases h
    | writing => cases h
  · intro b c r h
    obtain ⟨f, d, n⟩ := c
    cases f with
    | unused => cases h; rfl
    | reading m => cases h
    | writing => cases h
  · intro b c hook r h
    obtain ⟨f, d, n⟩ := c
    cases f with
    | unused => cases h; rfl
    | reading m => cases h
    | writing => cases h
  · intro authors hook r h
    obtain ⟨d, hrun, _, _⟩ :=
      withAuthors_frame authors (ContractBuilder.new nm).1 (ContractBuilder.new nm).2 rfl
    simp only [buildChain, hrun] at h
    rw [validate_some _ _ rfl] at h
    change on_deploy _ _ hook = some r at h
    rw [on_deploy_some _ _ hook rfl] at h
    cases h
    exact ⟨rfl, rfl⟩

/-- Claim C8 witness: the main chain keeps the name TokenX. -/
theorem C8_name_immutable_witness :
    ((⟨"TokenX", Stage.SDeployed⟩ : ContractBuilder),
      (⟨BorrowFlag.unused,
        [("author", "azaM"), ("validated", "true"), ("status", "deployed"),
         ("timestamp", "2025-06-28"), ("signer", "0xDEADBEEF")], 1⟩ : MetadataCell)).1.name =
        "TokenX" ∧
    ((⟨"TokenX", Stage.SDeployed⟩ : ContractBuilder),
      (⟨BorrowFlag.unused,
        [("author", "azaM"), ("validated", "true"), ("status", "deployed"),
         ("timestamp", "2025-06-28"), ("signer", "0xDEADBEEF")], 1⟩ : MetadataCell)).1.stage =
        Stage.SDeployed :=
  (C8_name_immutable "TokenX").2.2.2.2 ["azaM"] mainHook _ rfl

/-- Claim C9, modelled behaviour of main as written: the whole standard
output is the header line followed by exactly one line per key/value pair
of the final registry map, each formatted as two spaces, key, colon-space,
value, and the run completes with exit code success. (The committed code
cannot actually produce this: into_deployed constructs the unit marker
struct Deployed with fields, which does not compile, so the program as a
whole builds no binary; this theorem records the behaviour of main itself,
which is what the spec describes.) -/
theorem C9_main_output :
    (∃ c, mainRegistry = some c ∧
      mainLines = some ("📘 Contract Metadata:" :: c.data.map formatLine)) ∧
    mainLines = some ["📘 Contract Metadata:",
      "  author: azaM", "  validated: true", "  status: deployed",
      "  timestamp: 2025-06-28", "  signer: 0xDEADBEEF"] ∧
    mainExitCode = some 0 :=
  ⟨⟨⟨BorrowFlag.unused,
      [("author", "azaM"), ("validated", "true"), ("status", "deployed"),
       ("timestamp", "2025-06-28"), ("signer", "0xDEADBEEF")], 1⟩, rfl, rfl⟩,
   rfl, rfl⟩

/-- Claim C10: frame effects. On an unborrowed cell, with_author writes only
key "author", validate writes only key "validated", and on_deploy with an
insertion-only hook writes only key "status" plus the keys written by the hook itself;
every other entry is unchanged, and no operation deletes any entry. -/
theorem C10_frame_effects (b : ContractBuilder) (c : MetadataCell)
    (hflag : c.flag = BorrowFlag.unused) :
    (∀ a, ∃ r, with_author b c a = some r ∧
      (∀ k, k ≠ "author" → hmGet k r.2.data = hmGet k c.data) ∧
      (∀ k, (hmGet k c.data).isSome → (hmGet k r.2.data).isSome)) ∧
    (∃ r, validate b c = some r ∧
      (∀ k, k ≠ "validated" → hmGet k r.2.data = hmGet k c.data) ∧
      (∀ k, (hmGet k c.data).isSome → (hmGet k r.2.data).isSome)) ∧
    (∀ l, ∃ r, on_deploy b c (insertsHook l) = some r ∧
      (∀ k, k ≠ "status" → k ∉ l.map Prod.fst → hmGet k r.2.data = hmGet k c.data) ∧
      (∀ k, (hmGet k c.data).isSome → (hmGet k r.2.data).isSome)) := by
  refine ⟨?_, ?_, ?_⟩
  · intro a
    refine ⟨_, with_author_some b c a hflag, ?_, ?_⟩
    · intro k hk
      exact hmGet_hmInsert_ne k "author" a (Ne.symm hk) c.data
    · intro k h
      exact hmGet_hmInsert_isSome k "author" a c.data h
  · refine ⟨_, validate_some b c hflag, ?_, ?_⟩
    · intro k hk
      exact hmGet_hmInsert_ne k "validated" "true" (Ne.symm hk) c.data
    · intro k h
      exact hmGet_hmInsert_isSome k "validated" "true" c.data h
  · intro l
    refine ⟨_, on_deploy_some b c (insertsHook l) hflag, ?_, ?_⟩
    · intro k hk hl
      show hmGet k (insertsHook l (hmInsert "status" "deployed" c.data)) = hmGet k c.data
      rw [hmGet_insertsHook_notMem k l _ hl]
      exact hmGet_hmInsert_ne k "status" "deployed" (Ne.symm hk) c.data
    · intro k h
      exact hmGet_insertsHook_isSome k l _ (hmGet_hmInsert_isSome k "status" "deployed" c.data h)

/-- Claim C10 witness: the validate frame at a concrete cell holding an
author entry. -/
theorem C10_frame_effects_witness :
    ∃ r, validate ⟨"TokenX", Stage.SInit⟩ ⟨BorrowFlag.unused, [("author", "azaM")], 1⟩ = some r ∧
      (∀ k, k ≠ "validated" →
        hmGet k r.2.data =
          hmGet k (⟨BorrowFlag.unused, [("author", "azaM")], 1⟩ : MetadataCell).data) ∧
      (∀ k, (hmGet k (⟨BorrowFlag.unused, [("author", "azaM")], 1⟩ : MetadataCell).data).isSome →
        (hmGet k r.2.data).isSome) :=
  (C10_frame_effects ⟨"TokenX", Stage.SInit⟩ ⟨BorrowFlag.unused, [("author", "azaM")], 1⟩ rfl).2.1

end SCRG
